import Mathlib

/-!
Verification of the `frequent_apriori` mining engine
(`frequent_apriori/Abstracts.py` and `frequent_apriori/Memory.py`).

The Python code is shallowly embedded: Python `frozenset`s of item labels
become `Finset String`, transaction-id sets become `Finset ℕ`, Python
floats become `ℚ` (the code only ever divides exact integer counts), and
runtime errors (`ZeroDivisionError`, `TypeError`, `reduce` on an empty
sequence) are made explicit through `Except MineErr`.
-/

/-- Runtime failures of the embedded Python code. -/
inductive MineErr : Type
  /-- `ZeroDivisionError` -/
  | zeroDiv : MineErr
  /-- `TypeError` (e.g. `len(None)`, or `reduce` over an empty sequence) -/
  | typeError : MineErr
  /-- `reduce(set.intersection, [])` raises `TypeError`; kept separate so the
      empty-candidate failure can be distinguished in proofs -/
  | emptyCandidate : MineErr
  /-- artificial fuel exhaustion of the embedded `while` loop (the Python
      loop has no such case; the chosen fuel is always sufficient) -/
  | fuel : MineErr
deriving DecidableEq

/-- Embedding of the Python class `FrequentSet` (fields `items`, `support`,
`relative_support`). -/
structure FrequentSet where
  items : Finset String
  support : ℕ
  relative_support : ℚ
deriving DecidableEq

instance : Inhabited FrequentSet := ⟨⟨∅, 0, 0⟩⟩

/-- Embedding of the Python class `AssociationRule` (fields `condition`,
`consequence`, `confidence`, `lift`). -/
structure AssociationRule where
  condition : Finset String
  consequence : Finset String
  confidence : ℚ
  lift : ℚ
deriving DecidableEq

instance : Inhabited AssociationRule := ⟨⟨∅, ∅, 0, 0⟩⟩

/-- State of a `FrequentPatternsAbstract` object after construction: the
transaction count, the keys of the inverted index (`_get_all_items`) and the
inverted index itself (`_item_transactions`). -/
structure Store where
  transaction_count : ℕ
  all_items : List String
  item_transactions : String → Finset ℕ

/-- Python dict keys are kept in first-insertion order; this dedups a list
keeping the first occurrence of each element. -/
def firstOccur (l : List String) : List String :=
  l.foldl (fun acc x => if x ∈ acc then acc else acc ++ [x]) []

/-- `FrequentPatterns._item_transactions` of the in-memory backend: the set of
1-based transaction ids whose transaction contains `item`. -/
def memItemTransactions (transactions : List (List String)) (item : String) : Finset ℕ :=
  (((List.range transactions.length).filter
      (fun i => item ∈ transactions.getD i [])).map (· + 1)).toFinset

/-- The in-memory store built by `FrequentPatterns._index_transactions`. -/
def memStore (transactions : List (List String)) : Store :=
  { transaction_count := transactions.length
    all_items := firstOccur transactions.flatten
    item_transactions := memItemTransactions transactions }

/-- Python `len` applied to an argument that may be `None`: `len(None)`
raises `TypeError`. -/
def pyLen (transactions : Option (List (List String))) : Except MineErr ℕ :=
  match transactions with
  | none => .error .typeError
  | some l => .ok l.length

/-- Embedding of `FrequentPatternsAbstract.__init__` (as instantiated by the
in-memory `FrequentPatterns`): `self._transaction_count = len(transactions)`
runs before the `if transactions is not None` guard, so a `None` argument
raises `TypeError` before the guard is reached. -/
def initStore (transactions : Option (List (List String))) : Except MineErr Store :=
  match pyLen transactions with
  | .error e => .error e
  | .ok n =>
    -- `if transactions is not None: self._index_transactions(transactions)`
    match transactions with
    | none => .ok { transaction_count := n, all_items := [], item_transactions := fun _ => ∅ }
    | some ts => .ok { memStore ts with transaction_count := n }

/-- Canonically sorted listing of a multiset of item labels, computed with the
structurally recursive insertion sort so that concrete instances evaluate. -/
def msortedList (m : Multiset String) : List String :=
  Quot.liftOn m (List.insertionSort (· ≤ ·)) (fun a b hab =>
    List.eq_of_perm_of_sorted
      ((List.perm_insertionSort _ a).trans (hab.trans (List.perm_insertionSort _ b).symm))
      (List.sorted_insertionSort _ a) (List.sorted_insertionSort _ b))

/-- Iteration over a Python `frozenset` of items, embedded as the canonical
sorted listing of the `Finset` (the Python iteration order is arbitrary; every
use below is order-independent). -/
def itemsList (s : Finset String) : List String :=
  msortedList s.val

/-- The transaction set of a candidate: `reduce(set.intersection,
[self._item_transactions(item) for item in candidate])`. -/
def candidateTransactions (store : Store) (candidate : Finset String) : Finset ℕ :=
  match itemsList candidate with
  | [] => ∅
  | i :: rest => rest.foldl (fun acc j => acc ∩ store.item_transactions j) (store.item_transactions i)

/-- Embedding of `FrequentPatternsAbstract.__support_value`.  An empty
candidate makes `reduce` raise `TypeError`; a zero transaction count makes
the relative-support division raise `ZeroDivisionError`. -/
def supportValue (store : Store) (candidate : Finset String) : Except MineErr (ℕ × ℚ) :=
  if candidate = ∅ then .error .emptyCandidate
  else if store.transaction_count = 0 then .error .zeroDiv
  else
    let support := (candidateTransactions store candidate).card
    .ok (support, (support : ℚ) / (store.transaction_count : ℚ))

/-- `itertools.combinations` over a Python `frozenset`/`set` of items, choosing
`k` elements: all `k`-element subsets, listed once each. -/
def combinationsOf (s : Finset String) (k : ℕ) : List (Finset String) :=
  ((itemsList s).sublistsLen k).map List.toFinset

/-- Python `int()` applied to a float: truncation toward zero. -/
def truncTowardZero (q : ℚ) : ℤ :=
  if 0 ≤ q then ⌊q⌋ else ⌈q⌉

/-- The threshold normalisation at the top of `get_frequent_item_sets`
(lines 162-169): absolute thresholds are truncated with `int()` and clamped to
the transaction count when out of `[0, transaction_count]`; relative
thresholds are replaced by `1.0` when out of `[0, 1]`. -/
def clampMinimumSupport (count : ℕ) (minimum_support : ℚ) (is_relative_support : Bool) : ℚ :=
  if is_relative_support = false then
    let m : ℤ := truncTowardZero minimum_support
    if m < 0 ∨ (count : ℤ) < m then (count : ℚ) else (m : ℚ)
  else
    if ¬(0 ≤ minimum_support ∧ minimum_support ≤ 1) then 1 else minimum_support

/-- The initial candidate list (the level-0 placeholder): one singleton
`FrequentSet` per indexed item, carrying the boolean `is_relative_support`
as its placeholder `relative_support` value (Python stores the bool itself;
numerically `True == 1`, `False == 0`; the placeholder is never read). -/
def initialLevel (store : Store) (is_relative_support : Bool) : List FrequentSet :=
  store.all_items.map (fun key =>
    { items := {key}, support := 0
      relative_support := if is_relative_support then 1 else 0 })

/-- The items of the frequent sets of one level, as the Python set
`previous_frequent_sets`. -/
def levelItemSets (cur : List FrequentSet) : Finset (Finset String) :=
  (cur.map (·.items)).toFinset

/-- Candidate generation for one iteration of the `while` loop: combinations
of size `iteration + 1` over the items of the surviving sets of the previous
iteration, with the Apriori subset check applied when `iteration > 0`. -/
def levelCandidates (iteration : ℕ) (cur : List FrequentSet) : List (Finset String) :=
  let uniqueItems : Finset String := cur.foldr (fun fs acc => fs.items ∪ acc) ∅
  let possible := combinationsOf uniqueItems (iteration + 1)
  if 0 < iteration then
    possible.filter (fun cand =>
      decide ((cand.powersetCard iteration : Finset (Finset String)) ⊆ levelItemSets cur))
  else
    possible

/-- Support computation and threshold filtering of one iteration's candidate
list (lines 232-250): the support of every candidate is computed, and the
candidates meeting the minimum support become the next level's frequent
sets, in candidate order. -/
def evalCandidates (store : Store) (ms : ℚ) (is_relative_support : Bool) :
    List (Finset String) → Except MineErr (List FrequentSet)
  | [] => .ok []
  | c :: rest =>
    match supportValue store c with
    | .error e => .error e
    | .ok (support, relative_support) =>
      match evalCandidates store ms is_relative_support rest with
      | .error e => .error e
      | .ok tail =>
        if (if is_relative_support then relative_support < ms else (support : ℚ) < ms) then
          .ok tail
        else
          .ok ({ items := c, support := support, relative_support := relative_support } :: tail)

/-- The `while next_iteration` loop of `get_frequent_item_sets`: generates and
evaluates level after level, returning the concatenation of all levels from
level 1 on (level 0 is the placeholder removed by `del
iterations_frequent_sets[0]`).  `fuel` bounds the recursion; the caller passes
enough fuel for the loop to always terminate on its own. -/
def mineLoop (store : Store) (ms : ℚ) (is_relative_support : Bool) :
    ℕ → ℕ → List FrequentSet → Except MineErr (List FrequentSet)
  | 0, _, _ => .error .fuel
  | fuel + 1, iteration, cur =>
    match evalCandidates store ms is_relative_support (levelCandidates iteration cur) with
    | .error e => .error e
    | .ok next =>
      if next.isEmpty then .ok []
      else
        match mineLoop store ms is_relative_support fuel (iteration + 1) next with
        | .error e => .error e
        | .ok rest => .ok (next ++ rest)

/-- `itertools.combinations(joined, 2)` over list positions: all index pairs
`(i, j)` with `i < j < n`, in lexicographic order. -/
def pairList (n : ℕ) : List (ℕ × ℕ) :=
  (List.range n).flatMap (fun i =>
    ((List.range n).filter (fun j => decide (i < j))).map (fun j => (i, j)))

/-- The pruning pass of `get_frequent_item_sets` (lines 274-277): walk every
position pair `(i, j)` with `i < j`; when the set at `i` was not pruned yet
and its items are a subset of the items at `j`, prune position `i`.  Python
collects the pruned `FrequentSet` objects in a set keyed by object identity,
which the position index models exactly. -/
def prunePass (joined : List FrequentSet) : Finset ℕ :=
  (pairList joined.length).foldl
    (fun pruned ij =>
      if ij.1 ∉ pruned ∧ (joined.getD ij.1 default).items ⊆ (joined.getD ij.2 default).items then
        insert ij.1 pruned
      else pruned)
    ∅

/-- Positions of `joined` surviving the pruning pass, in order (the list
comprehension of lines 279-283). -/
def filterNotPrunedFrom (pruned : Finset ℕ) : ℕ → List FrequentSet → List FrequentSet
  | _, [] => []
  | i, fs :: rest =>
    if i ∈ pruned then filterNotPrunedFrom pruned (i + 1) rest
    else fs :: filterNotPrunedFrom pruned (i + 1) rest

/-- One step of the stable insertion used to model CPython's stable sort:
place `x` before the first element `y` of the (already processed) list with
`lt x y`. -/
def pyIns {α : Type} (lt : α → α → Bool) (x : α) : List α → List α
  | [] => [x]
  | y :: ys => if lt x y then x :: y :: ys else y :: pyIns lt x ys

/-- Stable comparison sort using only the `lt` comparator, as CPython's
`list.sort` does. -/
def pySort {α : Type} (lt : α → α → Bool) (xs : List α) : List α :=
  xs.foldl (fun acc x => pyIns lt x acc) []

/-- CPython's `sorted(xs, reverse=True)`: the input is reversed, sorted
ascending with the stable comparison sort, and reversed again. -/
def pySortedRev {α : Type} (lt : α → α → Bool) (xs : List α) : List α :=
  (pySort lt xs.reverse).reverse

/-- The `FrequentSet.__lt__` comparator (line 36-37): compare supports. -/
def freqLt (a b : FrequentSet) : Bool :=
  decide (a.support < b.support)

/-- Pruning and final ordering of `get_frequent_item_sets` (lines 258-285). -/
def postProcess (prune : Bool) (joined : List FrequentSet) : List FrequentSet :=
  let prunedIdx := if prune then prunePass joined else (∅ : Finset ℕ)
  let cleaned := filterNotPrunedFrom prunedIdx 0 joined
  pySortedRev freqLt cleaned

/-- Embedding of `FrequentPatternsAbstract.get_frequent_item_sets`. -/
def getFrequentItemSets (store : Store) (minimum_support : ℚ)
    (is_relative_support : Bool) (prune : Bool) : Except MineErr (List FrequentSet) :=
  match mineLoop store
      (clampMinimumSupport store.transaction_count minimum_support is_relative_support)
      is_relative_support (store.all_items.length + 2) 0
      (initialLevel store is_relative_support) with
  | .error e => .error e
  | .ok joined => .ok (postProcess prune joined)

/-- `max([len(item_set.items) for item_set in frequent_item_sets]) if
len(frequent_item_sets) > 0 else 0` (lines 311-312). -/
def maxCardinality (inputs : List FrequentSet) : ℕ :=
  (inputs.map (fun s => s.items.card)).foldr max 0

/-- The subsets of one frequent itemset enumerated by the pool-building loop:
for every size `1 .. maximum_cardinality - 1`, all combinations of that size
(`range(1, maximum_cardinality)` and `combinations(frequent_set,
subset_index)`, lines 321-322). -/
def subsetsOfSet (maxc : ℕ) (s : Finset String) : List (Finset String) :=
  (List.range' 1 (maxc - 1)).flatMap (fun k => combinationsOf s k)

/-- The dedup-and-cache loop of `association_rules` (lines 324-338): walk the
candidate subsets in order; each subset not seen before gets its support
computed by `__support_value` and is appended to the global pool. -/
def addSubsets (store : Store) :
    List (Finset String) → Finset (Finset String) × List FrequentSet →
    Except MineErr (Finset (Finset String) × List FrequentSet)
  | [], st => .ok st
  | t :: rest, st =>
    if t ∈ st.1 then addSubsets store rest st
    else
      match supportValue store t with
      | .error e => .error e
      | .ok (support, relative_support) =>
        addSubsets store rest
          (insert t st.1,
           st.2 ++ [{ items := t, support := support, relative_support := relative_support }])

/-- The global fragment pool of `association_rules` (lines 311-338): built
only when the maximum cardinality exceeds 1, by enumerating every input
itemset's subsets of sizes `1 .. maximum_cardinality - 1` and caching each
distinct subset once, with its support. -/
def buildPool (store : Store) (inputs : List FrequentSet) : Except MineErr (List FrequentSet) :=
  let maxc := maxCardinality inputs
  if 1 < maxc then
    match addSubsets store (inputs.flatMap (fun s => subsetsOfSet maxc s.items)) (∅, []) with
    | .error e => .error e
    | .ok st => .ok st.2
  else
    .ok []

/-- The distinct item sets of the global fragment pool, for stating what the
pool contains. -/
def poolItemSets (store : Store) (inputs : List FrequentSet) :
    Except MineErr (Finset (Finset String)) :=
  match buildPool store inputs with
  | .error e => .error e
  | .ok pool => .ok (pool.map (·.items)).toFinset

/-- One ordered pair `(A, B)` of the all-pairs rule search (lines 355-392):
skip identical indices and non-disjoint fragments; otherwise compute the
union's support, the confidence `support(A∪B) / support(A)` and the lift
`support(A∪B) / (support(A) * relative_support(B))` — each division raising
`ZeroDivisionError` on a zero divisor — and emit the rule when both
thresholds are met. -/
def processPair (store : Store) (pool : List FrequentSet) (mc ml : ℚ) (i j : ℕ)
    (acc : List AssociationRule) : Except MineErr (List AssociationRule) :=
  if i = j then .ok acc
  else
    let a := pool.getD i default
    let b := pool.getD j default
    if a.items ∩ b.items = ∅ then
      match supportValue store (a.items ∪ b.items) with
      | .error e => .error e
      | .ok (sab, _) =>
        if (a.support : ℚ) = 0 then .error .zeroDiv
        else
          let conf := (sab : ℚ) / (a.support : ℚ)
          if (a.support : ℚ) * b.relative_support = 0 then .error .zeroDiv
          else
            let lift := (sab : ℚ) / ((a.support : ℚ) * b.relative_support)
            if mc ≤ conf ∧ ml ≤ lift then
              .ok (acc ++ [{ condition := a.items, consequence := b.items
                             confidence := conf, lift := lift }])
            else .ok acc
    else .ok acc

/-- Inner loop over the second index of the all-pairs rule search. -/
def pairLoopInner (store : Store) (pool : List FrequentSet) (mc ml : ℚ) (i : ℕ) :
    List ℕ → List AssociationRule → Except MineErr (List AssociationRule)
  | [], acc => .ok acc
  | j :: js, acc =>
    match processPair store pool mc ml i j acc with
    | .error e => .error e
    | .ok acc2 => pairLoopInner store pool mc ml i js acc2

/-- Outer loop over the first index of the all-pairs rule search. -/
def pairLoopOuter (store : Store) (pool : List FrequentSet) (mc ml : ℚ) :
    List ℕ → List AssociationRule → Except MineErr (List AssociationRule)
  | [], acc => .ok acc
  | i :: is_, acc =>
    match pairLoopInner store pool mc ml i (List.range pool.length) acc with
    | .error e => .error e
    | .ok acc2 => pairLoopOuter store pool mc ml is_ acc2

/-- The emitted rules of `association_rules`, in emission order (the order in
which `rule_index` was assigned). -/
def rulesFromPool (store : Store) (pool : List FrequentSet) (mc ml : ℚ) :
    Except MineErr (List AssociationRule) :=
  pairLoopOuter store pool mc ml (List.range pool.length) []

/-- The `AssociationRule.__lt__` comparator (lines 62-63): `self.confidence <
other.confidence and self.lift < other.lift`. -/
def ruleLtB (a b : AssociationRule) : Bool :=
  decide (a.confidence < b.confidence) && decide (a.lift < b.lift)

/-- The first ordering pass (lines 395-397): the dict
`association_rules_confidence` maps each rule index to its confidence, its
keys `0 .. n-1` are iterated in insertion order and sorted by confidence,
descending; the rules are then read back in that index order. -/
def reorderByConfidence (rules : List AssociationRule) : List AssociationRule :=
  (pySortedRev
      (fun i j => decide ((rules.getD i default).confidence < (rules.getD j default).confidence))
      (List.range rules.length)).map (fun i => rules.getD i default)

/-- Embedding of `FrequentPatternsAbstract.association_rules`: build the
global fragment pool, run the all-pairs search, then sort by confidence
descending and finally by the `AssociationRule.__lt__` comparator with
`reverse=True` (lines 399-402). -/
def associationRules (store : Store) (inputs : List FrequentSet) (mc ml : ℚ) :
    Except MineErr (List AssociationRule) :=
  match buildPool store inputs with
  | .error e => .error e
  | .ok pool =>
    match rulesFromPool store pool mc ml with
    | .error e => .error e
    | .ok rules => .ok (pySortedRev ruleLtB (reorderByConfidence rules))

/-- The threshold-failure test of lines 236-242. -/
def failsThreshold (ms : ℚ) (is_relative_support : Bool) (s : ℕ) (rs : ℚ) : Prop :=
  if is_relative_support then rs < ms else (s : ℚ) < ms

instance (ms : ℚ) (irel : Bool) (s : ℕ) (rs : ℚ) : Decidable (failsThreshold ms irel s rs) := by
  unfold failsThreshold
  infer_instance

/-- The support threshold test exactly as the filtering step of
`get_frequent_item_sets` applies it to a candidate item set. -/
def meetsThreshold (store : Store) (ms : ℚ) (is_relative_support : Bool)
    (t : Finset String) : Prop :=
  ∃ s rs, supportValue store t = .ok (s, rs) ∧
    ¬failsThreshold ms is_relative_support s rs

/-- The fragment pool as claim C4 words it, following the spec text: the
distinct non-empty **proper** subsets, of sizes `1 .. max_size - 1`, of the
input frequent itemsets. -/
def specProperSubsetPool (inputs : List FrequentSet) : Finset (Finset String) :=
  (inputs.foldr (fun (s : FrequentSet) (acc : Finset (Finset String)) =>
      s.items.powerset ∪ acc) ∅).filter
    (fun t => (∃ fs : FrequentSet, fs ∈ inputs ∧ t ⊂ fs.items) ∧
      1 ≤ t.card ∧ t.card ≤ maxCardinality inputs - 1)

/-! ### Support-query lemmas -/

lemma mem_foldl_inter (f : String → Finset ℕ) (t : ℕ) :
    ∀ (l : List String) (init : Finset ℕ),
      t ∈ l.foldl (fun acc j => acc ∩ f j) init ↔ t ∈ init ∧ ∀ j ∈ l, t ∈ f j := by
  intro l
  induction l with
  | nil => simp
  | cons j js ih =>
    intro init
    simp only [List.foldl_cons, ih, Finset.mem_inter, List.mem_cons]
    constructor
    · rintro ⟨⟨h1, h2⟩, h3⟩
      exact ⟨h1, by rintro x (rfl | hx) <;> [exact h2; exact h3 x hx]⟩
    · rintro ⟨h1, h2⟩
      exact ⟨⟨h1, h2 j (Or.inl rfl)⟩, fun x hx => h2 x (Or.inr hx)⟩

lemma msortedList_coe (m : Multiset String) : (msortedList m : Multiset String) = m := by
  induction m using Quotient.inductionOn with
  | h l => exact Quotient.sound (List.perm_insertionSort _ l)

lemma msortedList_sorted (m : Multiset String) : (msortedList m).Sorted (· ≤ ·) := by
  induction m using Quotient.inductionOn with
  | h l => exact List.sorted_insertionSort _ l

lemma mem_itemsList {s : Finset String} {x : String} : x ∈ itemsList s ↔ x ∈ s := by
  rw [← Multiset.mem_coe, itemsList, msortedList_coe]
  rfl

lemma itemsList_length (s : Finset String) : (itemsList s).length = s.card := by
  have h1 : ((itemsList s : List String) : Multiset String).card = s.val.card := by
    rw [itemsList, msortedList_coe]
  simpa using h1

lemma itemsList_toFinset (s : Finset String) : (itemsList s).toFinset = s := by
  ext x
  rw [List.mem_toFinset, mem_itemsList]

lemma itemsList_eq_nil_iff {s : Finset String} : itemsList s = [] ↔ s = ∅ := by
  constructor
  · intro h
    ext x
    simp only [Finset.not_mem_empty, iff_false]
    intro hx
    have hx2 := mem_itemsList.mpr hx
    rw [h] at hx2
    exact absurd hx2 (List.not_mem_nil x)
  · rintro rfl
    rfl

lemma mem_candidateTransactions {store : Store} {candidate : Finset String}
    (hne : candidate ≠ ∅) (t : ℕ) :
    t ∈ candidateTransactions store candidate ↔
      ∀ i ∈ candidate, t ∈ store.item_transactions i := by
  unfold candidateTransactions
  cases hl : itemsList candidate with
  | nil => exact absurd (itemsList_eq_nil_iff.mp hl) hne
  | cons i rest =>
    rw [mem_foldl_inter]
    have hmem : ∀ x : String, x ∈ candidate ↔ x = i ∨ x ∈ rest := by
      intro x
      rw [← mem_itemsList, hl]
      simp
    constructor
    · rintro ⟨h1, h2⟩ x hx
      rcases (hmem x).mp hx with rfl | hx2
      · exact h1
      · exact h2 x hx2
    · intro h
      exact ⟨h i ((hmem i).mpr (Or.inl rfl)), fun x hx => h x ((hmem x).mpr (Or.inr hx))⟩

lemma supportValue_ok {store : Store} {candidate : Finset String} {s : ℕ} {rs : ℚ}
    (h : supportValue store candidate = .ok (s, rs)) :
    candidate ≠ ∅ ∧ store.transaction_count ≠ 0 ∧
      s = (candidateTransactions store candidate).card ∧
      rs = (s : ℚ) / (store.transaction_count : ℚ) := by
  unfold supportValue at h
  split at h
  · exact absurd h (by simp)
  · split at h
    · exact absurd h (by simp)
    · rename_i h1 h2
      simp only [Except.ok.injEq, Prod.mk.injEq] at h
      exact ⟨h1, h2, h.1.symm, by rw [← h.1, ← h.2]⟩

lemma supportValue_mono {store : Store} {a b : Finset String} {sa sb : ℕ} {ra rb : ℚ}
    (hsub : a ⊆ b) (ha : supportValue store a = .ok (sa, ra))
    (hb : supportValue store b = .ok (sb, rb)) : sb ≤ sa := by
  obtain ⟨hane, -, hsa, -⟩ := supportValue_ok ha
  obtain ⟨hbne, -, hsb, -⟩ := supportValue_ok hb
  rw [hsa, hsb]
  apply Finset.card_le_card
  intro t ht
  rw [mem_candidateTransactions hane]
  rw [mem_candidateTransactions hbne] at ht
  exact fun i hi => ht i (hsub hi)

lemma supportValue_rs_nonneg {store : Store} {candidate : Finset String} {s : ℕ} {rs : ℚ}
    (h : supportValue store candidate = .ok (s, rs)) : 0 ≤ rs := by
  obtain ⟨-, -, -, hrs⟩ := supportValue_ok h
  rw [hrs]
  positivity

/-! ### Lemmas about the modelled CPython sort -/

lemma pyIns_perm {α : Type} (lt : α → α → Bool) (x : α) :
    ∀ l : List α, List.Perm (pyIns lt x l) (x :: l) := by
  intro l
  induction l with
  | nil => rfl
  | cons y ys ih =>
    unfold pyIns
    split
    · rfl
    · exact (List.Perm.cons y ih).trans (List.Perm.swap x y ys)

lemma pySort_perm {α : Type} (lt : α → α → Bool) (xs : List α) :
    List.Perm (pySort lt xs) xs := by
  suffices h : ∀ (l : List α) (acc : List α),
      List.Perm (l.foldl (fun a x => pyIns lt x a) acc) (acc ++ l) by
    simpa using h xs []
  intro l
  induction l with
  | nil => simp
  | cons x ls ih =>
    intro acc
    have h1 : (x :: ls).foldl (fun a y => pyIns lt y a) acc
        = ls.foldl (fun a y => pyIns lt y a) (pyIns lt x acc) := by simp
    rw [h1]
    have h2 := ih (pyIns lt x acc)
    have h3 : List.Perm (pyIns lt x acc ++ ls) ((x :: acc) ++ ls) :=
      (pyIns_perm lt x acc).append_right ls
    have h4 : List.Perm ((x :: acc) ++ ls) (acc ++ x :: ls) := by
      simpa using (@List.perm_middle _ x acc ls).symm
    exact (h2.trans h3).trans h4

lemma pySortedRev_perm {α : Type} (lt : α → α → Bool) (xs : List α) :
    List.Perm (pySortedRev lt xs) xs := by
  unfold pySortedRev
  exact ((pySort lt xs.reverse).reverse_perm.trans
    (pySort_perm lt xs.reverse)).trans xs.reverse_perm

lemma mem_pySortedRev {α : Type} (lt : α → α → Bool) (xs : List α) (a : α) :
    a ∈ pySortedRev lt xs ↔ a ∈ xs :=
  (pySortedRev_perm lt xs).mem_iff

lemma pyIns_pairwise {α : Type} {lt : α → α → Bool}
    (hasym : ∀ a b, lt a b = true → lt b a = false)
    (htrans : ∀ a b c, lt a b = true → lt b c = true → lt a c = true)
    (x : α) : ∀ {l : List α}, l.Pairwise (fun a b => lt b a = false) →
      (pyIns lt x l).Pairwise (fun a b => lt b a = false) := by
  intro l
  induction l with
  | nil => intro _; simp [pyIns]
  | cons y ys ih =>
    intro h
    rw [List.pairwise_cons] at h
    unfold pyIns
    split
    · rename_i hxy
      rw [List.pairwise_cons]
      refine ⟨?_, List.pairwise_cons.mpr h⟩
      intro z hz
      rcases List.mem_cons.mp hz with rfl | hz2
      · exact hasym x z hxy
      · cases hzx : lt z x with
        | false => rfl
        | true =>
          have hzy : lt z y = true := htrans z x y hzx hxy
          have hzy2 := h.1 z hz2
          rw [hzy2] at hzy
          exact absurd hzy (by simp)
    · rename_i hxy
      rw [List.pairwise_cons]
      constructor
      · intro z hz
        rcases List.mem_cons.mp ((pyIns_perm lt x ys).mem_iff.mp hz) with rfl | hz2
        · simpa using hxy
        · exact h.1 z hz2
      · exact ih h.2

lemma pySort_pairwise {α : Type} {lt : α → α → Bool}
    (hasym : ∀ a b, lt a b = true → lt b a = false)
    (htrans : ∀ a b c, lt a b = true → lt b c = true → lt a c = true)
    (xs : List α) : (pySort lt xs).Pairwise (fun a b => lt b a = false) := by
  suffices h : ∀ (l acc : List α), acc.Pairwise (fun a b => lt b a = false) →
      (l.foldl (fun a x => pyIns lt x a) acc).Pairwise (fun a b => lt b a = false) by
    exact h xs [] (by simp)
  intro l
  induction l with
  | nil => intro acc h; simpa using h
  | cons x ls ih =>
    intro acc h
    simpa using ih (pyIns lt x acc) (pyIns_pairwise hasym htrans x h)

lemma pySortedRev_pairwise {α : Type} {lt : α → α → Bool}
    (hasym : ∀ a b, lt a b = true → lt b a = false)
    (htrans : ∀ a b c, lt a b = true → lt b c = true → lt a c = true)
    (xs : List α) : (pySortedRev lt xs).Pairwise (fun a b => lt a b = false) := by
  unfold pySortedRev
  rw [List.pairwise_reverse]
  exact pySort_pairwise hasym htrans xs.reverse

lemma pyIns_eq_append {α : Type} {lt : α → α → Bool} (x : α) :
    ∀ {l : List α}, (∀ y ∈ l, lt x y = false) → pyIns lt x l = l ++ [x] := by
  intro l
  induction l with
  | nil => intro _; rfl
  | cons y ys ih =>
    intro h
    unfold pyIns
    rw [h y (List.mem_cons_self y ys)]
    simp only [Bool.false_eq_true, if_false, List.cons_append, List.cons.injEq, true_and]
    exact ih (fun z hz => h z (List.mem_cons_of_mem y hz))

lemma pySort_eq_self {α : Type} {lt : α → α → Bool} :
    ∀ {xs : List α}, xs.Pairwise (fun a b => lt b a = false) → pySort lt xs = xs := by
  suffices h : ∀ (l acc : List α), (acc ++ l).Pairwise (fun a b => lt b a = false) →
      l.foldl (fun a x => pyIns lt x a) acc = acc ++ l by
    intro xs hxs
    simpa using h xs [] (by simpa using hxs)
  intro l
  induction l with
  | nil => intro acc h; simp
  | cons x ls ih =>
    intro acc h
    have hins : pyIns lt x acc = acc ++ [x] := by
      apply pyIns_eq_append
      intro y hy
      exact (List.pairwise_append.mp h).2.2 y hy x (List.mem_cons_self x ls)
    have h1 : (x :: ls).foldl (fun a y => pyIns lt y a) acc
        = ls.foldl (fun a y => pyIns lt y a) (pyIns lt x acc) := by simp
    rw [h1, hins, ih (acc ++ [x]) (by simpa using h)]
    simp

/-! ### Candidate-combination lemmas -/

lemma itemsList_sorted (s : Finset String) : (itemsList s).Sorted (· ≤ ·) :=
  msortedList_sorted s.val

lemma itemsList_nodup (s : Finset String) : (itemsList s).Nodup := by
  have h1 : ((itemsList s : List String) : Multiset String).Nodup := by
    rw [itemsList, msortedList_coe]
    exact s.nodup
  exact Multiset.coe_nodup.mp h1

lemma itemsList_sublist_of_subset {c s : Finset String} (h : c ⊆ s) :
    (itemsList c).Sublist (itemsList s) := by
  apply List.sublist_of_subperm_of_sorted ?_ (itemsList_sorted c) (itemsList_sorted s)
  apply (itemsList_nodup c).subperm
  intro x hx
  exact mem_itemsList.mpr (h (mem_itemsList.mp hx))

lemma mem_combinationsOf {s : Finset String} {k : ℕ} {c : Finset String} :
    c ∈ combinationsOf s k ↔ c ⊆ s ∧ c.card = k := by
  unfold combinationsOf
  rw [List.mem_map]
  constructor
  · rintro ⟨l, hl, rfl⟩
    obtain ⟨hsub, hlen⟩ := List.mem_sublistsLen.mp hl
    have hnd : l.Nodup := hsub.nodup (itemsList_nodup s)
    constructor
    · intro x hx
      rw [List.mem_toFinset] at hx
      exact mem_itemsList.mp (hsub.subset hx)
    · rw [List.toFinset_card_of_nodup hnd, hlen]
  · rintro ⟨hsub, rfl⟩
    refine ⟨itemsList c, List.mem_sublistsLen.mpr ⟨itemsList_sublist_of_subset hsub, ?_⟩, ?_⟩
    · exact itemsList_length c
    · exact itemsList_toFinset c

lemma nodup_combinationsOf (s : Finset String) (k : ℕ) : (combinationsOf s k).Nodup := by
  unfold combinationsOf
  apply List.Nodup.map_on ?_ (List.nodup_sublistsLen k (itemsList_nodup s))
  intro l1 h1 l2 h2 heq
  obtain ⟨hs1, -⟩ := List.mem_sublistsLen.mp h1
  obtain ⟨hs2, -⟩ := List.mem_sublistsLen.mp h2
  have hperm := List.perm_of_nodup_nodup_toFinset_eq
    (hs1.nodup (itemsList_nodup s)) (hs2.nodup (itemsList_nodup s)) heq
  exact List.eq_of_perm_of_sorted hperm
    ((itemsList_sorted s).sublist hs1) ((itemsList_sorted s).sublist hs2)

/-! ### Level-candidate lemmas -/

lemma levelCandidates_nodup (iteration : ℕ) (cur : List FrequentSet) :
    (levelCandidates iteration cur).Nodup := by
  unfold levelCandidates
  split
  · exact (nodup_combinationsOf _ _).filter _
  · exact nodup_combinationsOf _ _

lemma mem_levelCandidates_card {iteration : ℕ} {cur : List FrequentSet} {cand : Finset String}
    (h : cand ∈ levelCandidates iteration cur) : cand.card = iteration + 1 := by
  unfold levelCandidates at h
  split at h
  · exact (mem_combinationsOf.mp (List.mem_of_mem_filter h)).2
  · exact (mem_combinationsOf.mp h).2

lemma mem_levelCandidates_subsetCheck {iteration : ℕ} {cur : List FrequentSet}
    {cand : Finset String} (hit : 0 < iteration) (h : cand ∈ levelCandidates iteration cur) :
    (cand.powersetCard iteration : Finset (Finset String)) ⊆ levelItemSets cur := by
  unfold levelCandidates at h
  rw [if_pos hit] at h
  have := List.of_mem_filter h
  exact of_decide_eq_true this

/-! ### Level-evaluation lemmas -/

lemma evalCandidates_ok {store : Store} {ms : ℚ} {irel : Bool} :
    ∀ {cands : List (Finset String)} {out : List FrequentSet},
      evalCandidates store ms irel cands = .ok out →
      (out.map (·.items)).Sublist cands ∧
        ∀ fs ∈ out, supportValue store fs.items = .ok (fs.support, fs.relative_support) ∧
          ¬failsThreshold ms irel fs.support fs.relative_support := by
  intro cands
  induction cands with
  | nil =>
    intro out h
    unfold evalCandidates at h
    simp only [Except.ok.injEq] at h
    subst h
    simp
  | cons c rest ih =>
    intro out h
    cases hsv : supportValue store c with
    | error e => simp only [evalCandidates, hsv] at h; exact Except.noConfusion h
    | ok pr =>
      obtain ⟨s, rs⟩ := pr
      cases hrec : evalCandidates store ms irel rest with
      | error e => simp only [evalCandidates, hsv, hrec] at h; exact Except.noConfusion h
      | ok tail =>
        simp only [evalCandidates, hsv, hrec] at h
        obtain ⟨hsl, hinv⟩ := ih hrec
        by_cases hth : (if irel then rs < ms else (s : ℚ) < ms)
        · rw [if_pos hth] at h
          simp only [Except.ok.injEq] at h
          subst h
          exact ⟨hsl.trans (List.sublist_cons_self c rest), hinv⟩
        · rw [if_neg hth] at h
          simp only [Except.ok.injEq] at h
          subst h
          constructor
          · simpa using hsl.cons₂ c
          · intro fs hfs
            rcases List.mem_cons.mp hfs with rfl | hfs2
            · exact ⟨hsv, hth⟩
            · exact hinv fs hfs2

lemma evalCandidates_mem_items {store : Store} {ms : ℚ} {irel : Bool}
    {cands : List (Finset String)} {out : List FrequentSet}
    (h : evalCandidates store ms irel cands = .ok out) {fs : FrequentSet} (hfs : fs ∈ out) :
    fs.items ∈ cands :=
  (evalCandidates_ok h).1.subset (List.mem_map_of_mem (·.items) hfs)

/-! ### Mining-loop invariants -/

lemma mineLoop_ok_struct {store : Store} {ms : ℚ} {irel : Bool} :
    ∀ {fuel iteration : ℕ} {cur out : List FrequentSet},
      mineLoop store ms irel fuel iteration cur = .ok out →
      (∀ fs ∈ out, iteration + 1 ≤ fs.items.card ∧
          supportValue store fs.items = .ok (fs.support, fs.relative_support) ∧
          ¬failsThreshold ms irel fs.support fs.relative_support) ∧
        (out.map (·.items)).Nodup ∧
        (out.map (·.items.card)).Pairwise (· ≤ ·) := by
  intro fuel
  induction fuel with
  | zero => intro iteration cur out h; exact absurd h (by simp [mineLoop])
  | succ fuel ih =>
    intro iteration cur out h
    cases hev : evalCandidates store ms irel (levelCandidates iteration cur) with
    | error e => simp only [mineLoop, hev] at h; exact Except.noConfusion h
    | ok next =>
      by_cases hemp : next.isEmpty = true
      · simp only [mineLoop, hev, if_pos hemp, Except.ok.injEq] at h
        subst h
        simp
      · cases hrec : mineLoop store ms irel fuel (iteration + 1) next with
        | error e => simp only [mineLoop, hev, if_neg hemp, hrec] at h; exact Except.noConfusion h
        | ok rest =>
          simp only [mineLoop, hev, if_neg hemp, hrec, Except.ok.injEq] at h
          subst h
          obtain ⟨hev_sl, hev_inv⟩ := evalCandidates_ok hev
          obtain ⟨ih_inv, ih_nodup, ih_pair⟩ := ih hrec
          have hnext_card : ∀ fs ∈ next, fs.items.card = iteration + 1 := fun fs hfs =>
            mem_levelCandidates_card (evalCandidates_mem_items hev hfs)
          refine ⟨?_, ?_, ?_⟩
          · intro fs hfs
            rcases List.mem_append.mp hfs with hfs1 | hfs2
            · obtain ⟨hsv, hth⟩ := hev_inv fs hfs1
              exact ⟨le_of_eq (hnext_card fs hfs1).symm, hsv, hth⟩
            · obtain ⟨hc, hsv, hth⟩ := ih_inv fs hfs2
              exact ⟨le_trans (by omega) hc, hsv, hth⟩
          · rw [List.map_append]
            rw [List.nodup_append]
            refine ⟨hev_sl.nodup (levelCandidates_nodup iteration cur), ih_nodup, ?_⟩
            intro t ht1 ht2
            rw [List.mem_map] at ht1 ht2
            obtain ⟨fs1, hfs1, rfl⟩ := ht1
            obtain ⟨fs2, hfs2, heq⟩ := ht2
            have h1 : fs1.items.card = iteration + 1 := hnext_card fs1 hfs1
            have h2 : iteration + 2 ≤ fs2.items.card := (ih_inv fs2 hfs2).1
            rw [heq] at h2
            omega
          · rw [List.map_append, List.pairwise_append]
            refine ⟨?_, ih_pair, ?_⟩
            · rw [List.pairwise_map]
              apply List.pairwise_of_forall_mem_list
              intro a ha b hb
              rw [hnext_card a ha, hnext_card b hb]
            · intro x hx y hy
              rw [List.mem_map] at hx hy
              obtain ⟨fs1, hfs1, rfl⟩ := hx
              obtain ⟨fs2, hfs2, rfl⟩ := hy
              have h1 : fs1.items.card = iteration + 1 := hnext_card fs1 hfs1
              have h2 : iteration + 2 ≤ fs2.items.card := (ih_inv fs2 hfs2).1
              omega

lemma mineLoop_downward_closure {store : Store} {ms : ℚ} {irel : Bool} :
    ∀ {fuel iteration : ℕ} {cur out : List FrequentSet},
      mineLoop store ms irel fuel iteration cur = .ok out →
      (0 < iteration → ∀ fs ∈ cur, ∀ t ⊆ fs.items, t.Nonempty → meetsThreshold store ms irel t) →
      ∀ fs ∈ out, ∀ t ⊆ fs.items, t.Nonempty → meetsThreshold store ms irel t := by
  intro fuel
  induction fuel with
  | zero => intro it cur out h; exact absurd h (by simp [mineLoop])
  | succ fuel ih =>
    intro iteration cur out h hcur
    cases hev : evalCandidates store ms irel (levelCandidates iteration cur) with
    | error e => simp only [mineLoop, hev] at h; exact Except.noConfusion h
    | ok next =>
      by_cases hemp : next.isEmpty = true
      · simp only [mineLoop, hev, if_pos hemp, Except.ok.injEq] at h
        subst h
        simp
      · cases hrec : mineLoop store ms irel fuel (iteration + 1) next with
        | error e =>
          simp only [mineLoop, hev, if_neg hemp, hrec] at h
          exact Except.noConfusion h
        | ok rest =>
          simp only [mineLoop, hev, if_neg hemp, hrec, Except.ok.injEq] at h
          subst h
          have hnextDC : ∀ fs ∈ next, ∀ t ⊆ fs.items, t.Nonempty →
              meetsThreshold store ms irel t := by
            intro fs hfs t hts htne
            obtain ⟨hsv, hth⟩ := (evalCandidates_ok hev).2 fs hfs
            have hcand := evalCandidates_mem_items hev hfs
            have hcard : fs.items.card = iteration + 1 := mem_levelCandidates_card hcand
            by_cases heq : t = fs.items
            · subst heq
              exact ⟨fs.support, fs.relative_support, hsv, hth⟩
            · have hlt : t.card < iteration + 1 := by
                rw [← hcard]
                exact Finset.card_lt_card (Finset.ssubset_iff_subset_ne.mpr ⟨hts, heq⟩)
              rcases Nat.eq_zero_or_pos iteration with hzero | hpos
              · exfalso
                subst hzero
                have : t.card = 0 := by omega
                rw [Finset.card_eq_zero] at this
                exact Finset.nonempty_iff_ne_empty.mp htne this
              · obtain ⟨u, htu, hufs, hucard⟩ :=
                  Finset.exists_subsuperset_card_eq hts
                    (by omega : t.card ≤ iteration) (by omega : iteration ≤ fs.items.card)
                have humem : u ∈ fs.items.powersetCard iteration :=
                  Finset.mem_powersetCard.mpr ⟨hufs, hucard⟩
                have hu2 := mem_levelCandidates_subsetCheck hpos hcand humem
                rw [levelItemSets, List.mem_toFinset, List.mem_map] at hu2
                obtain ⟨fs2, hfs2, hfs2items⟩ := hu2
                refine hcur hpos fs2 hfs2 t ?_ htne
                rw [hfs2items]
                exact htu
          intro fs hfs
          rcases List.mem_append.mp hfs with h1 | h2
          · exact hnextDC fs h1
          · exact ih hrec (fun _ => hnextDC) fs h2

/-! ### Pruning-pass lemmas -/

lemma mem_pairList {n i j : ℕ} : (i, j) ∈ pairList n ↔ i < j ∧ j < n := by
  unfold pairList
  rw [List.mem_flatMap]
  constructor
  · rintro ⟨a, ha, hmem⟩
    rw [List.mem_map] at hmem
    obtain ⟨b, hb, heq⟩ := hmem
    rw [List.mem_filter, List.mem_range] at hb
    obtain ⟨hbn, hab⟩ := hb
    obtain ⟨rfl, rfl⟩ := Prod.mk.injEq .. ▸ heq
    exact ⟨of_decide_eq_true hab, hbn⟩
  · rintro ⟨hij, hjn⟩
    refine ⟨i, List.mem_range.mpr (lt_trans hij hjn), ?_⟩
    rw [List.mem_map]
    exact ⟨j, List.mem_filter.mpr ⟨List.mem_range.mpr hjn, decide_eq_true hij⟩, rfl⟩

lemma mem_foldl_prune (joined : List FrequentSet) :
    ∀ (l : List (ℕ × ℕ)) (init : Finset ℕ) (x : ℕ),
      x ∈ l.foldl
          (fun pruned ij =>
            if ij.1 ∉ pruned ∧
                (joined.getD ij.1 default).items ⊆ (joined.getD ij.2 default).items then
              insert ij.1 pruned
            else pruned)
          init ↔
        x ∈ init ∨ ∃ ij ∈ l, ij.1 = x ∧
          (joined.getD ij.1 default).items ⊆ (joined.getD ij.2 default).items := by
  intro l
  induction l with
  | nil => simp
  | cons p ps ih =>
    intro init x
    rw [List.foldl_cons, ih]
    by_cases hc : p.1 ∉ init ∧ (joined.getD p.1 default).items ⊆ (joined.getD p.2 default).items
    · rw [if_pos hc]
      have hsub := hc.2
      simp only [Finset.mem_insert, List.mem_cons]
      constructor
      · rintro ((rfl | hx) | ⟨ij, hij, rfl, hs⟩)
        · exact Or.inr ⟨p, Or.inl rfl, rfl, hsub⟩
        · exact Or.inl hx
        · exact Or.inr ⟨ij, Or.inr hij, rfl, hs⟩
      · rintro (hx | ⟨ij, (rfl | hij), rfl, hs⟩)
        · exact Or.inl (Or.inr hx)
        · exact Or.inl (Or.inl rfl)
        · exact Or.inr ⟨ij, hij, rfl, hs⟩
    · rw [if_neg hc]
      push_neg at hc
      simp only [List.mem_cons]
      constructor
      · rintro (hx | ⟨ij, hij, rfl, hs⟩)
        · exact Or.inl hx
        · exact Or.inr ⟨ij, Or.inr hij, rfl, hs⟩
      · rintro (hx | ⟨ij, (rfl | hij), rfl, hs⟩)
        · exact Or.inl hx
        · by_cases hin : ij.1 ∈ init
          · exact Or.inl hin
          · exact absurd hs (hc hin)
        · exact Or.inr ⟨ij, hij, rfl, hs⟩

lemma mem_prunePass {joined : List FrequentSet} {i : ℕ} :
    i ∈ prunePass joined ↔ ∃ j, i < j ∧ j < joined.length ∧
      (joined.getD i default).items ⊆ (joined.getD j default).items := by
  unfold prunePass
  rw [mem_foldl_prune]
  simp only [Finset.not_mem_empty, false_or]
  constructor
  · rintro ⟨⟨a, b⟩, hab, heq, hsub⟩
    obtain ⟨h1, h2⟩ := mem_pairList.mp hab
    subst heq
    exact ⟨b, h1, h2, hsub⟩
  · rintro ⟨j, hij, hjn, hsub⟩
    exact ⟨(i, j), mem_pairList.mpr ⟨hij, hjn⟩, rfl, hsub⟩

lemma mem_filterNotPrunedFrom {pruned : Finset ℕ} {fs : FrequentSet} :
    ∀ (l : List FrequentSet) (i : ℕ),
      fs ∈ filterNotPrunedFrom pruned i l ↔
        ∃ k, k < l.length ∧ l.getD k default = fs ∧ (i + k) ∉ pruned := by
  intro l
  induction l with
  | nil => intro i; simp [filterNotPrunedFrom]
  | cons x xs ih =>
    intro i
    unfold filterNotPrunedFrom
    by_cases hx : i ∈ pruned
    · rw [if_pos hx, ih]
      constructor
      · rintro ⟨k, hk, hget, hkp⟩
        refine ⟨k + 1, by simpa using Nat.succ_lt_succ hk, ?_, ?_⟩
        · simpa using hget
        · intro hmem
          exact hkp (by rwa [show i + 1 + k = i + (k + 1) by omega])
      · rintro ⟨k, hk, hget, hkp⟩
        cases k with
        | zero =>
          exfalso
          rw [Nat.add_zero] at hkp
          exact hkp hx
        | succ k =>
          refine ⟨k, by simpa using Nat.lt_of_succ_lt_succ hk, by simpa using hget, ?_⟩
          intro hmem
          exact hkp (by rwa [show i + (k + 1) = i + 1 + k by omega])
    · rw [if_neg hx]
      rw [List.mem_cons, ih]
      constructor
      · rintro (rfl | ⟨k, hk, hget, hkp⟩)
        · exact ⟨0, by simp, by simp, by simpa using hx⟩
        · refine ⟨k + 1, by simpa using Nat.succ_lt_succ hk, by simpa using hget, ?_⟩
          intro hmem
          exact hkp (by rwa [show i + 1 + k = i + (k + 1) by omega])
      · rintro ⟨k, hk, hget, hkp⟩
        cases k with
        | zero =>
          left
          simpa using hget.symm
        | succ k =>
          right
          refine ⟨k, by simpa using Nat.lt_of_succ_lt_succ hk, by simpa using hget, ?_⟩
          intro hmem
          exact hkp (by rwa [show i + (k + 1) = i + 1 + k by omega])

lemma postProcess_true_eq (joined : List FrequentSet) :
    postProcess true joined =
      pySortedRev freqLt (filterNotPrunedFrom (prunePass joined) 0 joined) := rfl

lemma getD_mem_of_lt {joined : List FrequentSet} {m : ℕ} (hm : m < joined.length) :
    joined.getD m default ∈ joined := by
  rw [List.getD_eq_getElem joined default hm]
  exact List.getElem_mem hm

lemma mem_postProcess_true {joined : List FrequentSet}
    (hnodup : (joined.map (·.items)).Nodup)
    (hpair : (joined.map (·.items.card)).Pairwise (· ≤ ·)) (fs : FrequentSet) :
    fs ∈ postProcess true joined ↔
      fs ∈ joined ∧ ∀ fs2 ∈ joined, fs.items ⊆ fs2.items → fs2 = fs := by
  have hitems_inj : ∀ {m k : ℕ}, m < joined.length → k < joined.length →
      (joined.getD m default).items = (joined.getD k default).items → m = k := by
    intro m k hm hk heq
    have hm2 : m < (joined.map (·.items)).length := by
      rw [List.length_map]
      exact hm
    have hk2 : k < (joined.map (·.items)).length := by
      rw [List.length_map]
      exact hk
    have heq2 : (joined.map (·.items))[m] = (joined.map (·.items))[k] := by
      rw [List.getElem_map, List.getElem_map]
      rw [List.getD_eq_getElem joined default hm, List.getD_eq_getElem joined default hk] at heq
      exact heq
    exact (List.Nodup.getElem_inj_iff hnodup).mp heq2
  have hcard_mono : ∀ {m k : ℕ}, m < joined.length → k < joined.length → m < k →
      (joined.getD m default).items.card ≤ (joined.getD k default).items.card := by
    intro m k hm hk hmk
    have hm2 : m < (joined.map (·.items.card)).length := by
      rw [List.length_map]
      exact hm
    have hk2 : k < (joined.map (·.items.card)).length := by
      rw [List.length_map]
      exact hk
    have hpq := List.pairwise_iff_getElem.mp hpair m k hm2 hk2 hmk
    rw [List.getElem_map, List.getElem_map] at hpq
    rw [List.getD_eq_getElem joined default hm, List.getD_eq_getElem joined default hk]
    exact hpq
  rw [postProcess_true_eq, mem_pySortedRev, mem_filterNotPrunedFrom]
  constructor
  · rintro ⟨k, hk, hget, hnp⟩
    rw [Nat.zero_add] at hnp
    have hfsmem : fs ∈ joined := hget ▸ getD_mem_of_lt hk
    refine ⟨hfsmem, ?_⟩
    intro fs2 hfs2 hsub
    obtain ⟨m, hm, hfs2get⟩ := List.mem_iff_getElem.mp hfs2
    have hfs2getD : joined.getD m default = fs2 := by
      rw [List.getD_eq_getElem joined default hm]
      exact hfs2get
    by_cases heqi : fs2.items = fs.items
    · have hmk : m = k := by
        apply hitems_inj hm hk
        rw [hfs2getD, hget, heqi]
      rw [← hfs2getD, hmk, hget]
    · exfalso
      have hss : fs.items ⊂ fs2.items :=
        Finset.ssubset_iff_subset_ne.mpr ⟨hsub, fun h => heqi h.symm⟩
      have hcardlt : fs.items.card < fs2.items.card := Finset.card_lt_card hss
      have hkm : k < m := by
        rcases Nat.lt_trichotomy k m with h | h | h
        · exact h
        · exfalso
          apply heqi
          rw [← hfs2getD, ← hget, h]
        · exfalso
          have hle := hcard_mono hm hk h
          rw [hfs2getD, hget] at hle
          omega
      apply hnp
      rw [mem_prunePass]
      refine ⟨m, hkm, hm, ?_⟩
      rw [hfs2getD, hget]
      exact hsub
  · rintro ⟨hfsmem, hmax⟩
    obtain ⟨k, hk, hget⟩ := List.mem_iff_getElem.mp hfsmem
    have hgetD : joined.getD k default = fs := by
      rw [List.getD_eq_getElem joined default hk]
      exact hget
    refine ⟨k, hk, hgetD, ?_⟩
    rw [Nat.zero_add]
    intro hkp
    rw [mem_prunePass] at hkp
    obtain ⟨j, hkj, hj, hsub⟩ := hkp
    rw [hgetD] at hsub
    have hfs2mem : joined.getD j default ∈ joined := getD_mem_of_lt hj
    have heq := hmax (joined.getD j default) hfs2mem hsub
    have hjk : j = k := by
      apply hitems_inj hj hk
      rw [heq, hgetD]
    omega

/-! ### Fragment-pool lemmas -/

lemma addSubsets_ok {store : Store} :
    ∀ {l : List (Finset String)} {seen : Finset (Finset String)} {acc : List FrequentSet}
      {st : Finset (Finset String) × List FrequentSet},
      addSubsets store l (seen, acc) = .ok st →
      seen = (acc.map (·.items)).toFinset →
      (st.2.map (·.items)).toFinset = (acc.map (·.items)).toFinset ∪ l.toFinset ∧
        ((acc.map (·.items)).Nodup → (st.2.map (·.items)).Nodup) ∧
        (∀ p ∈ st.2, p ∈ acc ∨
          supportValue store p.items = .ok (p.support, p.relative_support)) := by
  intro l
  induction l with
  | nil =>
    intro seen acc st h hseen
    simp only [addSubsets, Except.ok.injEq] at h
    subst h
    refine ⟨by simp, fun hn => hn, fun p hp => Or.inl hp⟩
  | cons t rest ih =>
    intro seen acc st h hseen
    by_cases ht : t ∈ seen
    · rw [show addSubsets store (t :: rest) (seen, acc)
          = addSubsets store rest (seen, acc) by simp [addSubsets, ht]] at h
      obtain ⟨hun, hnd, hsv⟩ := ih h hseen
      refine ⟨?_, hnd, hsv⟩
      rw [hun, List.toFinset_cons]
      rw [hseen] at ht
      ext u
      simp only [Finset.mem_union, Finset.mem_insert, List.mem_toFinset]
      constructor
      · rintro (h1 | h2)
        · exact Or.inl h1
        · exact Or.inr (Or.inr h2)
      · rintro (h1 | rfl | h2)
        · exact Or.inl h1
        · exact Or.inl (List.mem_toFinset.mp ht)
        · exact Or.inr h2
    · cases hsv : supportValue store t with
      | error e =>
        rw [show addSubsets store (t :: rest) (seen, acc)
            = .error e by simp [addSubsets, ht, hsv]] at h
        exact Except.noConfusion h
      | ok pr =>
        obtain ⟨sp, rsp⟩ := pr
        rw [show addSubsets store (t :: rest) (seen, acc)
            = addSubsets store rest
                (insert t seen,
                 acc ++ [({ items := t, support := sp, relative_support := rsp } : FrequentSet)])
            by simp [addSubsets, ht, hsv]] at h
        have hseen2 : insert t seen =
            (((acc ++ [({ items := t, support := sp, relative_support := rsp } : FrequentSet)]).map
              (·.items)).toFinset) := by
          rw [List.map_append, List.toFinset_append]
          simp only [List.map_cons, List.map_nil, List.toFinset_cons, List.toFinset_nil]
          rw [hseen]
          ext u
          simp only [Finset.mem_insert, Finset.mem_union, List.mem_toFinset]
          constructor
          · rintro (rfl | h1)
            · exact Or.inr (Or.inl rfl)
            · exact Or.inl h1
          · rintro (h1 | h2)
            · exact Or.inr h1
            · simp only [Finset.mem_insert, Finset.not_mem_empty, or_false] at h2
              exact Or.inl h2
        obtain ⟨hun, hnd, hsv2⟩ := ih h hseen2
        refine ⟨?_, ?_, ?_⟩
        · rw [hun, List.map_append, List.toFinset_append, List.toFinset_cons]
          simp only [List.map_cons, List.map_nil, List.toFinset_cons, List.toFinset_nil]
          ext u
          simp only [Finset.mem_union, Finset.mem_insert, Finset.not_mem_empty, or_false,
            List.mem_toFinset]
          tauto
        · intro hnacc
          apply hnd
          rw [List.map_append]
          rw [List.nodup_append]
          refine ⟨hnacc, by simp, ?_⟩
          intro u hu hu2
          simp only [List.map_cons, List.map_nil, List.mem_cons, List.not_mem_nil,
            or_false] at hu2
          subst hu2
          apply ht
          rw [hseen]
          exact List.mem_toFinset.mpr hu
        · intro p hp
          rcases hsv2 p hp with hin | hok
          · rcases List.mem_append.mp hin with h1 | h2
            · exact Or.inl h1
            · simp only [List.mem_cons, List.not_mem_nil, or_false] at h2
              subst h2
              exact Or.inr hsv
          · exact Or.inr hok

lemma maxCardinality_ge {inputs : List FrequentSet} {fs : FrequentSet} (h : fs ∈ inputs) :
    fs.items.card ≤ maxCardinality inputs := by
  unfold maxCardinality
  induction inputs with
  | nil => exact absurd h (List.not_mem_nil fs)
  | cons x xs ih =>
    rcases List.mem_cons.mp h with rfl | h2
    · simp only [List.map_cons, List.foldr_cons]
      exact le_max_left _ _
    · simp only [List.map_cons, List.foldr_cons]
      exact le_trans (ih h2) (le_max_right _ _)

lemma mem_subsetsOfSet {maxc : ℕ} {s t : Finset String} :
    t ∈ subsetsOfSet maxc s ↔ t ⊆ s ∧ 1 ≤ t.card ∧ t.card ≤ maxc - 1 := by
  unfold subsetsOfSet
  rw [List.mem_flatMap]
  constructor
  · rintro ⟨k, hk, hmem⟩
    rw [List.mem_range'_1] at hk
    obtain ⟨hsub, hcard⟩ := mem_combinationsOf.mp hmem
    exact ⟨hsub, by omega, by omega⟩
  · rintro ⟨hsub, h1, h2⟩
    refine ⟨t.card, ?_, mem_combinationsOf.mpr ⟨hsub, rfl⟩⟩
    rw [List.mem_range'_1]
    omega

lemma buildPool_ok {store : Store} {inputs pool : List FrequentSet}
    (h : buildPool store inputs = .ok pool) :
    (pool.map (·.items)).Nodup ∧
      (∀ t : Finset String, t ∈ pool.map (·.items) ↔
        (∃ fs ∈ inputs, t ⊆ fs.items) ∧ 1 ≤ t.card ∧ t.card ≤ maxCardinality inputs - 1) ∧
      (∀ p ∈ pool, supportValue store p.items = .ok (p.support, p.relative_support)) := by
  unfold buildPool at h
  by_cases hmax : 1 < maxCardinality inputs
  · rw [if_pos hmax] at h
    cases hadd : addSubsets store (inputs.flatMap (fun s => subsetsOfSet (maxCardinality inputs) s.items)) (∅, []) with
    | error e => rw [hadd] at h; exact Except.noConfusion h
    | ok st =>
      rw [hadd] at h
      simp only [Except.ok.injEq] at h
      subst h
      obtain ⟨hun, hnd, hsv⟩ := addSubsets_ok hadd (by simp)
      simp only [List.map_nil, List.toFinset_nil, Finset.empty_union] at hun
      refine ⟨hnd (by simp), ?_, ?_⟩
      · intro t
        rw [← List.mem_toFinset, hun, List.mem_toFinset, List.mem_flatMap]
        constructor
        · rintro ⟨fs, hfs, hmem⟩
          obtain ⟨hsub, h1, h2⟩ := mem_subsetsOfSet.mp hmem
          exact ⟨⟨fs, hfs, hsub⟩, h1, h2⟩
        · rintro ⟨⟨fs, hfs, hsub⟩, h1, h2⟩
          exact ⟨fs, hfs, mem_subsetsOfSet.mpr ⟨hsub, h1, h2⟩⟩
      · intro p hp
        rcases hsv p hp with hin | hok
        · exact absurd hin (List.not_mem_nil p)
        · exact hok
  · rw [if_neg hmax] at h
    simp only [Except.ok.injEq] at h
    subst h
    refine ⟨by simp, ?_, by simp⟩
    intro t
    simp only [List.map_nil, List.not_mem_nil, false_iff]
    rintro ⟨-, h1, h2⟩
    omega

/-! ### Rule-validity lemmas -/

/-- The rule-validity property of claim C7: disjoint sides, confidence in
the unit interval, non-negative lift. -/
def ruleValid (r : AssociationRule) : Prop :=
  r.condition ∩ r.consequence = ∅ ∧ 0 ≤ r.confidence ∧ r.confidence ≤ 1 ∧ 0 ≤ r.lift

lemma processPair_ok {store : Store} {pool : List FrequentSet} {mc ml : ℚ} {i j : ℕ}
    {acc out : List AssociationRule}
    (hpool : ∀ p ∈ pool, 1 ≤ p.items.card ∧
      supportValue store p.items = .ok (p.support, p.relative_support))
    (hi : i < pool.length) (hj : j < pool.length)
    (h : processPair store pool mc ml i j acc = .ok out)
    (hacc : ∀ r ∈ acc, ruleValid r) :
    ∀ r ∈ out, ruleValid r := by
  unfold processPair at h
  by_cases hij : i = j
  · rw [if_pos hij] at h
    simp only [Except.ok.injEq] at h
    subst h
    exact hacc
  · rw [if_neg hij] at h
    set a := pool.getD i default with ha
    set b := pool.getD j default with hb
    have hamem : a ∈ pool := getD_mem_of_lt hi
    have hbmem : b ∈ pool := getD_mem_of_lt hj
    obtain ⟨hacard, hasv⟩ := hpool a hamem
    obtain ⟨hbcard, hbsv⟩ := hpool b hbmem
    by_cases hdisj : a.items ∩ b.items = ∅
    · rw [if_pos hdisj] at h
      cases hsv : supportValue store (a.items ∪ b.items) with
      | error e => rw [hsv] at h; exact Except.noConfusion h
      | ok pr =>
        obtain ⟨sab, rsab⟩ := pr
        simp only [hsv] at h
        by_cases hza : (a.support : ℚ) = 0
        · rw [if_pos hza] at h
          exact Except.noConfusion h
        · rw [if_neg hza] at h
          by_cases hzd : (a.support : ℚ) * b.relative_support = 0
          · rw [if_pos hzd] at h
            exact Except.noConfusion h
          · rw [if_neg hzd] at h
            have hapos : (0 : ℚ) < (a.support : ℚ) := by
              rcases Nat.eq_zero_or_pos a.support with h0 | hpos
              · exact absurd (by rw [h0]; norm_num) hza
              · exact_mod_cast hpos
            have hble : sab ≤ a.support :=
              supportValue_mono Finset.subset_union_left hasv hsv
            have hconf0 : (0 : ℚ) ≤ (sab : ℚ) / (a.support : ℚ) := by positivity
            have hconf1 : (sab : ℚ) / (a.support : ℚ) ≤ 1 := by
              rw [div_le_one hapos]
              exact_mod_cast hble
            have hbrs : 0 ≤ b.relative_support := supportValue_rs_nonneg hbsv
            have hdpos : (0 : ℚ) < (a.support : ℚ) * b.relative_support := by
              rcases lt_or_eq_of_le (mul_nonneg (le_of_lt hapos) hbrs) with hlt | heq
              · exact hlt
              · exact absurd heq.symm hzd
            have hlift0 : (0 : ℚ) ≤ (sab : ℚ) / ((a.support : ℚ) * b.relative_support) := by
              positivity
            by_cases hth : mc ≤ (sab : ℚ) / (a.support : ℚ) ∧
                ml ≤ (sab : ℚ) / ((a.support : ℚ) * b.relative_support)
            · rw [if_pos hth] at h
              simp only [Except.ok.injEq] at h
              subst h
              intro r hr
              rcases List.mem_append.mp hr with h1 | h2
              · exact hacc r h1
              · simp only [List.mem_cons, List.not_mem_nil, or_false] at h2
                subst h2
                exact ⟨hdisj, hconf0, hconf1, hlift0⟩
            · rw [if_neg hth] at h
              simp only [Except.ok.injEq] at h
              subst h
              exact hacc
    · rw [if_neg hdisj] at h
      simp only [Except.ok.injEq] at h
      subst h
      exact hacc

lemma pairLoopInner_ok {store : Store} {pool : List FrequentSet} {mc ml : ℚ} {i : ℕ}
    (hpool : ∀ p ∈ pool, 1 ≤ p.items.card ∧
      supportValue store p.items = .ok (p.support, p.relative_support))
    (hi : i < pool.length) :
    ∀ {js : List ℕ} {acc out : List AssociationRule},
      (∀ j ∈ js, j < pool.length) →
      pairLoopInner store pool mc ml i js acc = .ok out →
      (∀ r ∈ acc, ruleValid r) → ∀ r ∈ out, ruleValid r := by
  intro js
  induction js with
  | nil =>
    intro acc out hjs h hacc
    simp only [pairLoopInner, Except.ok.injEq] at h
    subst h
    exact hacc
  | cons j js ih =>
    intro acc out hjs h hacc
    cases hp : processPair store pool mc ml i j acc with
    | error e => simp only [pairLoopInner, hp] at h; exact Except.noConfusion h
    | ok acc2 =>
      simp only [pairLoopInner, hp] at h
      exact ih (fun x hx => hjs x (List.mem_cons_of_mem j hx)) h
        (processPair_ok hpool hi (hjs j (List.mem_cons_self j js)) hp hacc)

lemma pairLoopOuter_ok {store : Store} {pool : List FrequentSet} {mc ml : ℚ}
    (hpool : ∀ p ∈ pool, 1 ≤ p.items.card ∧
      supportValue store p.items = .ok (p.support, p.relative_support)) :
    ∀ {is_ : List ℕ} {acc out : List AssociationRule},
      (∀ i ∈ is_, i < pool.length) →
      pairLoopOuter store pool mc ml is_ acc = .ok out →
      (∀ r ∈ acc, ruleValid r) → ∀ r ∈ out, ruleValid r := by
  intro is_
  induction is_ with
  | nil =>
    intro acc out his h hacc
    simp only [pairLoopOuter, Except.ok.injEq] at h
    subst h
    exact hacc
  | cons i is_ ih =>
    intro acc out his h hacc
    cases hp : pairLoopInner store pool mc ml i (List.range pool.length) acc with
    | error e => simp only [pairLoopOuter, hp] at h; exact Except.noConfusion h
    | ok acc2 =>
      simp only [pairLoopOuter, hp] at h
      exact ih (fun x hx => his x (List.mem_cons_of_mem i hx)) h
        (pairLoopInner_ok hpool (his i (List.mem_cons_self i is_))
          (fun x hx => List.mem_range.mp hx) hp hacc)

lemma rulesFromPool_ok {store : Store} {pool : List FrequentSet} {mc ml : ℚ}
    {rules : List AssociationRule}
    (hpool : ∀ p ∈ pool, 1 ≤ p.items.card ∧
      supportValue store p.items = .ok (p.support, p.relative_support))
    (h : rulesFromPool store pool mc ml = .ok rules) :
    ∀ r ∈ rules, ruleValid r :=
  pairLoopOuter_ok hpool (fun x hx => List.mem_range.mp hx) h (by simp)

/-! ### Rule-ordering lemmas -/

lemma map_getD_range {α : Type} [Inhabited α] :
    ∀ l : List α, (List.range l.length).map (fun i => l.getD i default) = l := by
  intro l
  induction l with
  | nil => simp
  | cons x xs ih =>
    rw [List.length_cons, List.range_succ_eq_map, List.map_cons, List.map_map]
    have hcomp : ((fun i => (x :: xs).getD i default) ∘ (· + 1))
        = (fun i => xs.getD i default) := by
      funext i
      rfl
    rw [hcomp, ih]
    rfl

lemma reorderByConfidence_perm (rules : List AssociationRule) :
    List.Perm (reorderByConfidence rules) rules := by
  unfold reorderByConfidence
  have h1 := pySortedRev_perm
    (fun i j => decide ((rules.getD i default).confidence < (rules.getD j default).confidence))
    (List.range rules.length)
  have h2 := h1.map (fun i => rules.getD i default)
  rwa [map_getD_range] at h2

lemma reorderByConfidence_sorted (rules : List AssociationRule) :
    (reorderByConfidence rules).Pairwise (fun a b => b.confidence ≤ a.confidence) := by
  unfold reorderByConfidence
  have hpw := @pySortedRev_pairwise ℕ
    (fun i j => decide ((rules.getD i default).confidence < (rules.getD j default).confidence))
    (fun a b hab => by
      rw [decide_eq_true_eq] at hab
      rw [decide_eq_false_iff_not]
      exact not_lt_of_lt hab)
    (fun a b c hab hbc => by
      rw [decide_eq_true_eq] at hab hbc
      rw [decide_eq_true_eq]
      exact lt_trans hab hbc)
    (List.range rules.length)
  rw [List.pairwise_map]
  apply hpw.imp
  intro i j hij
  rw [decide_eq_false_iff_not] at hij
  exact le_of_not_lt hij

lemma associationRules_eq_reorder {store : Store} {inputs : List FrequentSet} {mc ml : ℚ}
    {pool : List FrequentSet} {rules : List AssociationRule}
    (hpool : buildPool store inputs = .ok pool)
    (hrules : rulesFromPool store pool mc ml = .ok rules) :
    associationRules store inputs mc ml = .ok (reorderByConfidence rules) := by
  simp only [associationRules, hpool, hrules]
  congr 1
  unfold pySortedRev
  have hrev : (reorderByConfidence rules).reverse.Pairwise (fun a b => ruleLtB b a = false) := by
    rw [List.pairwise_reverse]
    apply (reorderByConfidence_sorted rules).imp
    intro a b hab
    unfold ruleLtB
    have h1 : decide (a.confidence < b.confidence) = false := by
      rw [decide_eq_false_iff_not]
      exact not_lt.mpr hab
    rw [h1]
    rfl
  rw [pySort_eq_self hrev, List.reverse_reverse]

/-! ### Glue lemmas for the claim theorems -/

instance {e a : Type} [DecidableEq e] [DecidableEq a] : DecidableEq (Except e a) := fun x y =>
  match x, y with
  | .ok v, .ok w =>
    if h : v = w then isTrue (by rw [h]) else isFalse (fun hc => by injection hc; contradiction)
  | .error v, .error w =>
    if h : v = w then isTrue (by rw [h]) else isFalse (fun hc => by injection hc; contradiction)
  | .ok _, .error _ => isFalse (fun hc => Except.noConfusion hc)
  | .error _, .ok _ => isFalse (fun hc => Except.noConfusion hc)

lemma mem_postProcess_subset {prune : Bool} {joined : List FrequentSet} {fs : FrequentSet}
    (h : fs ∈ postProcess prune joined) : fs ∈ joined := by
  unfold postProcess at h
  rw [mem_pySortedRev, mem_filterNotPrunedFrom] at h
  obtain ⟨k, hk, hget, -⟩ := h
  exact hget ▸ getD_mem_of_lt hk

lemma getFrequentItemSets_congr {store : Store} {ms1 ms2 : ℚ} {irel prune : Bool}
    (h : clampMinimumSupport store.transaction_count ms1 irel
       = clampMinimumSupport store.transaction_count ms2 irel) :
    getFrequentItemSets store ms1 irel prune = getFrequentItemSets store ms2 irel prune := by
  unfold getFrequentItemSets
  rw [h]

lemma clamp_rel_out_of_range {c : ℕ} {ms : ℚ} (h : ¬(0 ≤ ms ∧ ms ≤ 1)) :
    clampMinimumSupport c ms true = clampMinimumSupport c 1 true := by
  unfold clampMinimumSupport
  norm_num [h]

lemma clamp_abs_out_of_range {c : ℕ} {ms : ℚ}
    (h : truncTowardZero ms < 0 ∨ (c : ℤ) < truncTowardZero ms) :
    clampMinimumSupport c ms false = clampMinimumSupport c (c : ℚ) false := by
  unfold clampMinimumSupport
  have htc : truncTowardZero (c : ℚ) = (c : ℤ) := by
    unfold truncTowardZero
    rw [if_pos (by positivity)]
    exact Int.floor_natCast c
  simp only [Bool.false_eq_true, if_true, htc, if_pos h, lt_irrefl, or_false]
  rw [if_neg (by omega)]
  norm_cast

lemma clamp_neg_one (c : ℕ) : clampMinimumSupport c (-1) false = (c : ℚ) := by
  have h : truncTowardZero (-1) = -1 := by
    unfold truncTowardZero
    rw [if_neg (by norm_num)]
    rw [show ((-1 : ℚ)) = ((-1 : ℤ) : ℚ) by norm_num]
    exact Int.ceil_intCast _
  unfold clampMinimumSupport
  rw [h]
  norm_num

/-! ### Claim theorems -/

/-- C1: the claim states that pairs whose antecedent support is zero are
skipped, so `association_rules` never raises a division-by-zero error.  The
code has no such guard: `rule_support = float(support_a_union_b) / support_a`
divides by the cached antecedent support unconditionally.  On the store built
from `[["x"]]` and the input itemset `{a, b}` (whose items are unindexed),
the global fragment pool consists of the zero-support fragments `{a}` and
`{b}`, and the very first disjoint ordered pair raises `ZeroDivisionError`,
which the embedding returns as `.error .zeroDiv`. -/
theorem assoc_rules_zero_antecedent_division_error :
    associationRules (memStore [["x"]]) [⟨{"a", "b"}, 0, 0⟩] (1/2) (1/20) =
      .error .zeroDiv := by
  with_unfolding_all decide

/-- C6: support monotonicity.  For every store and every pair of itemsets
`A ⊆ B` whose supports the support-query primitive computes successfully,
the superset's support never exceeds the subset's support. -/
theorem support_monotone_on_subsets (store : Store) (a b : Finset String)
    (sa sb : ℕ) (ra rb : ℚ) (hne : a.Nonempty) (hsub : a ⊆ b)
    (ha : supportValue store a = .ok (sa, ra))
    (hb : supportValue store b = .ok (sb, rb)) : sb ≤ sa :=
  supportValue_mono hsub ha hb

/-- C6 witness: on the store of transactions `[["a","b"], ["a"]]`, the subset
`{a}` has support 2, the superset `{a,b}` has support 1, and the theorem
yields `1 ≤ 2`. -/
theorem support_monotone_on_subsets_witness :
    ({"a"} : Finset String).Nonempty ∧ ({"a"} : Finset String) ⊆ {"a", "b"} ∧
      supportValue (memStore [["a", "b"], ["a"]]) {"a"} = .ok (2, 1) ∧
      supportValue (memStore [["a", "b"], ["a"]]) {"a", "b"} = .ok (1, 1/2) ∧
      (1 : ℕ) ≤ 2 :=
  ⟨by with_unfolding_all decide, by with_unfolding_all decide,
   by with_unfolding_all decide, by with_unfolding_all decide,
   support_monotone_on_subsets (memStore [["a", "b"], ["a"]]) {"a"} {"a", "b"} 2 1 1 (1/2)
     (by with_unfolding_all decide) (by with_unfolding_all decide)
     (by with_unfolding_all decide) (by with_unfolding_all decide)⟩

/-- C8: mining a store built from an empty transaction list returns an empty
sequence and raises no error, for every combination of `minimum_support`,
`is_relative_support` and `prune`.  In particular no support computation (and
hence no division by the zero transaction count) ever runs: level 1 has no
candidates, so the loop stops before `__support_value` is called. -/
theorem empty_store_mines_empty (ms : ℚ) (irel prune : Bool) :
    getFrequentItemSets (memStore []) ms irel prune = .ok [] := by
  cases irel <;> cases prune <;> rfl

/-- C10: `FrequentPatternsAbstract.__init__` evaluates `len(transactions)`
before its `if transactions is not None` guard, so constructing a store with
the documented default `transactions=None` raises `TypeError`, and every
successfully constructed store received an actual transaction list. -/
theorem constructor_none_raises_type_error :
    initStore none = .error .typeError ∧
      ∀ ts : List (List String), initStore (some ts) = .ok (memStore ts) :=
  ⟨rfl, fun _ => rfl⟩

/-- C2: with `prune=True`, `get_frequent_item_sets` returns exactly the
maximal frequent itemsets: a retained frequent itemset (a member of the
joined levels `joined`) is returned iff no different retained itemset's items
contain its items. -/
theorem frequent_item_sets_prune_keeps_exactly_maximal (store : Store) (ms : ℚ)
    (irel : Bool) (joined result : List FrequentSet)
    (hj : mineLoop store (clampMinimumSupport store.transaction_count ms irel) irel
        (store.all_items.length + 2) 0 (initialLevel store irel) = .ok joined)
    (hr : getFrequentItemSets store ms irel true = .ok result) :
    ∀ fs, fs ∈ result ↔
      fs ∈ joined ∧ ∀ fs2 ∈ joined, fs.items ⊆ fs2.items → fs2 = fs := by
  have hres : result = postProcess true joined := by
    unfold getFrequentItemSets at hr
    rw [hj] at hr
    simp only [Except.ok.injEq] at hr
    exact hr.symm
  subst hres
  obtain ⟨-, hnodup, hpair⟩ := mineLoop_ok_struct hj
  exact mem_postProcess_true hnodup hpair

/-- C2 witness: mining `[["a"], ["a"]]` at relative support 1/2 retains only
the singleton `{a}` with support 2; it is returned and it is maximal. -/
theorem frequent_item_sets_prune_keeps_exactly_maximal_witness :
    (⟨{"a"}, 2, 1⟩ : FrequentSet) ∈ [(⟨{"a"}, 2, 1⟩ : FrequentSet)] ↔
      (⟨{"a"}, 2, 1⟩ : FrequentSet) ∈ [(⟨{"a"}, 2, 1⟩ : FrequentSet)] ∧
        ∀ fs2 ∈ [(⟨{"a"}, 2, 1⟩ : FrequentSet)],
          (⟨{"a"}, 2, 1⟩ : FrequentSet).items ⊆ fs2.items →
            fs2 = (⟨{"a"}, 2, 1⟩ : FrequentSet) :=
  frequent_item_sets_prune_keeps_exactly_maximal (memStore [["a"], ["a"]]) (1/2) true
    [⟨{"a"}, 2, 1⟩] [⟨{"a"}, 2, 1⟩]
    (by with_unfolding_all decide) (by with_unfolding_all decide) ⟨{"a"}, 2, 1⟩

/-- C3: the Apriori downward-closure invariant.  First part: for every level
`iteration ≥ 1`, a candidate's support is computed only if every one of its
size-`iteration` subsets is among the previous level's surviving itemsets
(candidates violating this are filtered out before `__support_value` runs).
Second part: consequently every non-empty subset of any returned frequent
itemset meets the (clamped) support threshold. -/
theorem apriori_downward_closure :
    (∀ (cur : List FrequentSet) (iteration : ℕ) (cand : Finset String), 0 < iteration →
        cand ∈ levelCandidates iteration cur →
        ∀ sub ∈ (cand.powersetCard iteration : Finset (Finset String)),
          sub ∈ levelItemSets cur) ∧
    (∀ (store : Store) (ms : ℚ) (irel prune : Bool) (result : List FrequentSet),
        getFrequentItemSets store ms irel prune = .ok result →
        ∀ fs ∈ result, ∀ t ⊆ fs.items, t.Nonempty →
          meetsThreshold store (clampMinimumSupport store.transaction_count ms irel) irel t) := by
  constructor
  · intro cur iteration cand hit hc sub hsub
    exact mem_levelCandidates_subsetCheck hit hc hsub
  · intro store ms irel prune result hr fs hfs t ht htne
    unfold getFrequentItemSets at hr
    cases hml : mineLoop store (clampMinimumSupport store.transaction_count ms irel) irel
        (store.all_items.length + 2) 0 (initialLevel store irel) with
    | error e => rw [hml] at hr; exact Except.noConfusion hr
    | ok joined =>
      rw [hml] at hr
      simp only [Except.ok.injEq] at hr
      subst hr
      have hfsj : fs ∈ joined := mem_postProcess_subset hfs
      exact mineLoop_downward_closure hml
        (fun h0 => absurd h0 (lt_irrefl 0)) fs hfsj t ht htne

/-- C3 witness: the candidate `{a,b}` of level 2 passes the subset check
against level 1 (`{a}` is among the surviving itemsets), and on the store
`[["a","b"], ["a","b"]]` the returned itemset `{a,b}`'s non-empty subset
`{a}` meets the threshold. -/
theorem apriori_downward_closure_witness :
    (({"a"} : Finset String) ∈ levelItemSets [⟨{"a"}, 2, 1⟩, ⟨{"b"}, 2, 1⟩]) ∧
      meetsThreshold (memStore [["a", "b"], ["a", "b"]])
        (clampMinimumSupport (memStore [["a", "b"], ["a", "b"]]).transaction_count (1/2) true)
        true {"a"} :=
  ⟨apriori_downward_closure.1 [⟨{"a"}, 2, 1⟩, ⟨{"b"}, 2, 1⟩] 1 {"a", "b"} (by norm_num)
      (by with_unfolding_all decide) {"a"} (by with_unfolding_all decide),
   apriori_downward_closure.2 (memStore [["a", "b"], ["a", "b"]]) (1/2) true true
      [⟨{"a", "b"}, 2, 1⟩] (by with_unfolding_all decide) ⟨{"a", "b"}, 2, 1⟩
      (by with_unfolding_all decide) {"a"} (by with_unfolding_all decide)
      (by with_unfolding_all decide)⟩

/-- C5 counterexample: the claim says an absolute `minimum_support` below 0
is replaced by the transaction count, so only full-coverage itemsets qualify.
With `minimum_support = -1/2` the code first truncates with `int()`, getting
0, which is inside `[0, transaction_count]` and is **not** clamped: on the
store `[["a"], ["b"]]` the effective threshold 0 retains `{a,b}` with support
0, whereas the clamped threshold (the transaction count 2) retains nothing —
so the two runs differ, refuting the claim as stated. -/
theorem minimum_support_clamping_counterexample :
    ((-1/2 : ℚ) < 0) ∧ (memStore [["a"], ["b"]]).transaction_count = 2 ∧
      getFrequentItemSets (memStore [["a"], ["b"]]) (-1/2) false true =
        .ok [⟨{"a", "b"}, 0, 0⟩] ∧
      getFrequentItemSets (memStore [["a"], ["b"]]) 2 false true = .ok [] ∧
      getFrequentItemSets (memStore [["a"], ["b"]]) (-1/2) false true ≠
        getFrequentItemSets (memStore [["a"], ["b"]]) 2 false true :=
  ⟨by norm_num, by with_unfolding_all decide, by with_unfolding_all decide,
   by with_unfolding_all decide, by with_unfolding_all decide⟩

/-- C5 (amended): in `get_frequent_item_sets`, a relative `minimum_support`
outside `[0,1]` is replaced by 1.0; an absolute `minimum_support` is first
truncated toward zero with `int()`, and only a truncated value below 0 or
above the transaction count is replaced by the transaction count (so a
fractional value in `(-1,0)` truncates to 0 and is not clamped); an absolute
`minimum_support` of -1 means only itemsets present in every transaction
qualify.  Out-of-range thresholds are clamped, never rejected as an error. -/
theorem minimum_support_clamping (store : Store) (p : Bool) :
    (∀ ms : ℚ, ¬(0 ≤ ms ∧ ms ≤ 1) →
      getFrequentItemSets store ms true p = getFrequentItemSets store 1 true p) ∧
    (∀ ms : ℚ,
      (truncTowardZero ms < 0 ∨ (store.transaction_count : ℤ) < truncTowardZero ms) →
      getFrequentItemSets store ms false p
        = getFrequentItemSets store (store.transaction_count : ℚ) false p) ∧
    (∀ result : List FrequentSet, getFrequentItemSets store (-1) false p = .ok result →
      ∀ fs ∈ result, store.transaction_count ≤ fs.support) := by
  refine ⟨?_, ?_, ?_⟩
  · intro ms h
    exact getFrequentItemSets_congr (clamp_rel_out_of_range h)
  · intro ms h
    exact getFrequentItemSets_congr (clamp_abs_out_of_range h)
  · intro result hr fs hfs
    unfold getFrequentItemSets at hr
    cases hml : mineLoop store
        (clampMinimumSupport store.transaction_count (-1) false) false
        (store.all_items.length + 2) 0 (initialLevel store false) with
    | error e => rw [hml] at hr; exact Except.noConfusion hr
    | ok joined =>
      rw [hml] at hr
      simp only [Except.ok.injEq] at hr
      subst hr
      have hfsj : fs ∈ joined := mem_postProcess_subset hfs
      obtain ⟨-, -, hth⟩ := (mineLoop_ok_struct hml).1 fs hfsj
      rw [clamp_neg_one] at hth
      unfold failsThreshold at hth
      simp only [Bool.false_eq_true, if_false] at hth
      exact_mod_cast not_lt.mp hth

/-- C5 witness: on the two-transaction store `[["a"], ["a"]]`, an out-of-range
relative threshold 2 behaves like 1.0, the absolute threshold -1 behaves like
the transaction count, and with absolute `minimum_support = -1` the returned
itemset `{a}` has support 2 = the transaction count. -/
theorem minimum_support_clamping_witness :
    (¬((0 : ℚ) ≤ 2 ∧ (2 : ℚ) ≤ 1)) ∧
      getFrequentItemSets (memStore [["a"], ["a"]]) 2 true true
        = getFrequentItemSets (memStore [["a"], ["a"]]) 1 true true ∧
      (truncTowardZero (-1) < 0 ∨
        ((memStore [["a"], ["a"]]).transaction_count : ℤ) < truncTowardZero (-1)) ∧
      getFrequentItemSets (memStore [["a"], ["a"]]) (-1) false true
        = getFrequentItemSets (memStore [["a"], ["a"]])
            ((memStore [["a"], ["a"]]).transaction_count : ℚ) false true ∧
      (memStore [["a"], ["a"]]).transaction_count ≤ (⟨{"a"}, 2, 1⟩ : FrequentSet).support := by
  have h1 : ¬((0 : ℚ) ≤ 2 ∧ (2 : ℚ) ≤ 1) := by norm_num
  have h2 : truncTowardZero (-1) < 0 ∨
      ((memStore [["a"], ["a"]]).transaction_count : ℤ) < truncTowardZero (-1) := by
    left
    unfold truncTowardZero
    rw [if_neg (by norm_num)]
    rw [show ((-1 : ℚ)) = ((-1 : ℤ) : ℚ) by norm_num, Int.ceil_intCast]
    norm_num
  exact ⟨h1, (minimum_support_clamping (memStore [["a"], ["a"]]) true).1 2 h1, h2,
    (minimum_support_clamping (memStore [["a"], ["a"]]) true).2.1 (-1) h2,
    (minimum_support_clamping (memStore [["a"], ["a"]]) true).2.2 [⟨{"a"}, 2, 1⟩]
      (by with_unfolding_all decide) ⟨{"a"}, 2, 1⟩ (by with_unfolding_all decide)⟩

/-- C4 counterexample: the claim says the global fragment pool consists
exactly of the distinct non-empty **proper** subsets of sizes
`1 .. max_size - 1` of the input itemsets.  On the inputs `{a,b}` and `{c}`
(max_size 2), the loop `combinations(frequent_set, 1)` over the size-1 input
`{c}` yields `{c}` itself — not a proper subset of any input — yet it enters
the pool: the pool's item sets are `{{a},{b},{c}}` while the proper-subset
reading gives `{{a},{b}}`. -/
theorem assoc_rules_pool_proper_subsets_counterexample :
    poolItemSets (memStore [["a", "b", "c"]]) [⟨{"a", "b"}, 1, 1⟩, ⟨{"c"}, 1, 1⟩] =
        .ok {{"a"}, {"b"}, {"c"}} ∧
      specProperSubsetPool [⟨{"a", "b"}, 1, 1⟩, ⟨{"c"}, 1, 1⟩] = {{"a"}, {"b"}} ∧
      ({{"a"}, {"b"}, {"c"}} : Finset (Finset String)) ≠ {{"a"}, {"b"}} :=
  ⟨by with_unfolding_all decide, by with_unfolding_all decide,
   by with_unfolding_all decide⟩

/-- C4 (amended): the global fragment pool of `association_rules` consists
exactly of the distinct non-empty subsets, of sizes `1 .. max_size - 1`, of
the input frequent itemsets (proper or not — an input itemset of size below
`max_size` contributes itself), each distinct subset appearing once
(deduplicated across all itemsets), with its support computed by the
support-query primitive. -/
theorem assoc_rules_pool_contents (store : Store) (inputs pool : List FrequentSet)
    (h : buildPool store inputs = .ok pool) :
    (pool.map (·.items)).Nodup ∧
      (∀ t : Finset String, t ∈ pool.map (·.items) ↔
        (∃ fs ∈ inputs, t ⊆ fs.items) ∧ 1 ≤ t.card ∧
          t.card ≤ maxCardinality inputs - 1) ∧
      ∀ p ∈ pool, supportValue store p.items = .ok (p.support, p.relative_support) :=
  buildPool_ok h

/-- C4 witness: on the inputs `{a,b}` and `{c}` over the store
`[["a","b","c"]]`, the pool is `[{b}, {a}, {c}]` (each with support 1), and
`{c}` is in the pool because it is a size-1 subset of the input `{c}`. -/
theorem assoc_rules_pool_contents_witness :
    ({"c"} : Finset String) ∈
        ([⟨{"b"}, 1, 1⟩, ⟨{"a"}, 1, 1⟩, ⟨{"c"}, 1, 1⟩] : List FrequentSet).map (·.items) ↔
      (∃ fs ∈ ([⟨{"a", "b"}, 1, 1⟩, ⟨{"c"}, 1, 1⟩] : List FrequentSet),
          ({"c"} : Finset String) ⊆ fs.items) ∧
        1 ≤ ({"c"} : Finset String).card ∧
        ({"c"} : Finset String).card ≤
          maxCardinality [⟨{"a", "b"}, 1, 1⟩, ⟨{"c"}, 1, 1⟩] - 1 :=
  (assoc_rules_pool_contents (memStore [["a", "b", "c"]])
      [⟨{"a", "b"}, 1, 1⟩, ⟨{"c"}, 1, 1⟩] [⟨{"b"}, 1, 1⟩, ⟨{"a"}, 1, 1⟩, ⟨{"c"}, 1, 1⟩]
      (by with_unfolding_all decide)).2.1 {"c"}

/-- C7: every rule in the sequence returned by `association_rules` has a
condition and consequence with empty intersection, a confidence in `[0,1]`,
and a lift ≥ 0, for every input list of frequent itemsets and both
thresholds. -/
theorem assoc_rules_validity (store : Store) (inputs : List FrequentSet) (mc ml : ℚ)
    (rules : List AssociationRule)
    (h : associationRules store inputs mc ml = .ok rules) :
    ∀ r ∈ rules, r.condition ∩ r.consequence = ∅ ∧
      0 ≤ r.confidence ∧ r.confidence ≤ 1 ∧ 0 ≤ r.lift := by
  unfold associationRules at h
  cases hp : buildPool store inputs with
  | error e => simp only [hp] at h; exact Except.noConfusion h
  | ok pool =>
    cases hq : rulesFromPool store pool mc ml with
    | error e => simp only [hp, hq] at h; exact Except.noConfusion h
    | ok raw =>
      simp only [hp, hq, Except.ok.injEq] at h
      subst h
      obtain ⟨-, hmem, hsv⟩ := buildPool_ok hp
      have hpoolinv : ∀ p ∈ pool, 1 ≤ p.items.card ∧
          supportValue store p.items = .ok (p.support, p.relative_support) := by
        intro p hp2
        refine ⟨?_, hsv p hp2⟩
        have := (hmem p.items).mp (List.mem_map_of_mem (·.items) hp2)
        exact this.2.1
      intro r hr
      have hrraw : r ∈ raw := by
        have h1 := (mem_pySortedRev ruleLtB (reorderByConfidence raw) r).mp hr
        exact (reorderByConfidence_perm raw).mem_iff.mp h1
      exact rulesFromPool_ok hpoolinv hq r hrraw

/-- C7 witness: on the store `[["a","b"], ["a"]]` with input `{a,b}` and
thresholds (3/4, 0), the single returned rule `{b} ⇒ {a}` has disjoint
sides, confidence 1 ∈ [0,1] and lift 1 ≥ 0. -/
theorem assoc_rules_validity_witness :
    ({"b"} : Finset String) ∩ {"a"} = ∅ ∧
      (0 : ℚ) ≤ 1 ∧ (1 : ℚ) ≤ 1 ∧ (0 : ℚ) ≤ 1 :=
  assoc_rules_validity (memStore [["a", "b"], ["a"]]) [⟨{"a", "b"}, 1, 1⟩] (3/4) 0
    [⟨{"b"}, {"a"}, 1, 1⟩] (by with_unfolding_all decide)
    ⟨{"b"}, {"a"}, 1, 1⟩ (by with_unfolding_all decide)

/-- C9: the sequence returned by `association_rules` is sorted by confidence
in descending order with confidence as the sole key: for every pair of
positions `i < j`, the rule at `i` has confidence ≥ the rule at `j`.  The
first sorting pass orders the rules by confidence descending, and the final
`sorted(..., reverse=True)` call with the partial `__lt__` comparator leaves
that order unchanged, because its comparator never reports an inversion on a
confidence-sorted input. -/
theorem assoc_rules_sorted_by_confidence_desc (store : Store)
    (inputs : List FrequentSet) (mc ml : ℚ) (rules : List AssociationRule)
    (h : associationRules store inputs mc ml = .ok rules) :
    rules.Pairwise (fun r1 r2 => r2.confidence ≤ r1.confidence) := by
  cases hp : buildPool store inputs with
  | error e =>
    unfold associationRules at h
    simp only [hp] at h
    exact Except.noConfusion h
  | ok pool =>
    cases hq : rulesFromPool store pool mc ml with
    | error e =>
      unfold associationRules at h
      simp only [hp, hq] at h
      exact Except.noConfusion h
    | ok raw =>
      have heq := associationRules_eq_reorder hp hq
      rw [h] at heq
      simp only [Except.ok.injEq] at heq
      rw [heq]
      exact reorderByConfidence_sorted raw

/-- C9 witness: with permissive thresholds on the store `[["a","b"], ["a"]]`
and input `{a,b}`, the returned rules are `{b} ⇒ {a}` (confidence 1) then
`{a} ⇒ {b}` (confidence 1/2): confidence is descending. -/
theorem assoc_rules_sorted_by_confidence_desc_witness :
    List.Pairwise (fun r1 r2 : AssociationRule => r2.confidence ≤ r1.confidence)
      [⟨{"b"}, {"a"}, 1, 1⟩, ⟨{"a"}, {"b"}, 1/2, 1⟩] :=
  assoc_rules_sorted_by_confidence_desc (memStore [["a", "b"], ["a"]])
    [⟨{"a", "b"}, 1, 1⟩] 0 0 [⟨{"b"}, {"a"}, 1, 1⟩, ⟨{"a"}, {"b"}, 1/2, 1⟩]
    (by with_unfolding_all decide)
